import Mathlib

set_option maxHeartbeats 1000000
set_option maxRecDepth 100000

/-!
Verification of the dushu document-ingestion core against its specification.

JavaScript strings are modelled as lists of characters (one element per code
point); byte buffers as lists of naturals.  External browser APIs
(TextDecoder, DOMParser text extraction, decodeURIComponent, the pdf.js item
stream, JSZip entry lookup) are taken as function parameters of the embedded
operations, since they are collaborators outside this repository; every
branch and accumulator of the repository code itself is translated directly.
-/

abbrev Str := List Char

abbrev Bytes := List Nat

/-- JavaScript whitespace: the characters matched by the regex class
backslash-s and removed by String.trim (ASCII blanks plus NBSP, the Unicode
space characters, the line and paragraph separators and the BOM), given by
code point. -/
def isJsWs (c : Char) : Bool :=
  c.toNat == 0x20 || c.toNat == 0x9 || c.toNat == 0xA || c.toNat == 0xD ||
  c.toNat == 0xB || c.toNat == 0xC || c.toNat == 0xA0 || c.toNat == 0x1680 ||
  (0x2000 ≤ c.toNat && c.toNat ≤ 0x200A) ||
  c.toNat == 0x2028 || c.toNat == 0x2029 || c.toNat == 0x202F ||
  c.toNat == 0x205F || c.toNat == 0x3000 || c.toNat == 0xFEFF

/-- Truthiness test of s.trim() in the source: a string is blank when every
character is JavaScript whitespace, i.e. trimming leaves the empty string. -/
def isBlank (s : Str) : Bool := s.all isJsWs

/-- String.trim: drop JavaScript whitespace from both ends. -/
def trimStr (s : Str) : Str :=
  ((s.dropWhile isJsWs).reverse.dropWhile isJsWs).reverse

/-- content.split with the one-character separator newline, as in
JavaScript: an empty input yields one empty field, a trailing separator an
empty final field. -/
def splitLines : Str → List Str
  | [] => [[]]
  | c :: rest =>
    if c = '\n' then [] :: splitLines rest
    else
      match splitLines rest with
      | [] => [[c]]
      | l :: ls => (c :: l) :: ls

/-- Concatenation of a list of strings. -/
def concatStrs (l : List Str) : Str := l.foldr (fun a b => a ++ b) []

theorem concatStrs_nil : concatStrs [] = [] := rfl

theorem concatStrs_cons (a : Str) (l : List Str) :
    concatStrs (a :: l) = a ++ concatStrs l := rfl

theorem concatStrs_append (l₁ l₂ : List Str) :
    concatStrs (l₁ ++ l₂) = concatStrs l₁ ++ concatStrs l₂ := by
  induction l₁ with
  | nil => simp [concatStrs_nil, concatStrs]
  | cons a t ih => simp [concatStrs_cons, ih]

theorem splitLines_ne_nil (cs : Str) : splitLines cs ≠ [] := by
  induction cs with
  | nil => simp [splitLines]
  | cons c rest ih =>
    simp only [splitLines]
    split
    · simp
    · split
      · simp
      · simp

theorem splitLines_concat (cs : Str) :
    concatStrs ((splitLines cs).map (fun l => l ++ ['\n'])) = cs ++ ['\n'] := by
  induction cs with
  | nil => rfl
  | cons c rest ih =>
    simp only [splitLines]
    split
    · rename_i h
      subst h
      simpa [concatStrs_cons] using ih
    · rcases hs : splitLines rest with _ | ⟨l, ls⟩
      · exact absurd hs (splitLines_ne_nil rest)
      · rw [hs] at ih
        simpa [concatStrs_cons] using ih

theorem splitLines_no_newline (cs : Str) :
    ∀ l ∈ splitLines cs, '\n' ∉ l := by
  induction cs with
  | nil =>
    intro l hl
    simp [splitLines] at hl
    simp [hl]
  | cons c rest ih =>
    intro l hl
    simp only [splitLines] at hl
    split at hl
    · rcases List.mem_cons.mp hl with hl | hl
      · simp [hl]
      · exact ih l hl
    · rename_i hc
      rcases hs : splitLines rest with _ | ⟨a, as⟩
      · exact absurd hs (splitLines_ne_nil rest)
      · rw [hs] at hl
        have iha : '\n' ∉ a := ih a (by rw [hs]; exact List.mem_cons_self a as)
        rcases List.mem_cons.mp hl with hl | hl
        · subst hl
          intro hmem
          rcases List.mem_cons.mp hmem with hmem | hmem
          · exact hc hmem.symm
          · exact iha hmem
        · exact ih l (by rw [hs]; exact List.mem_cons_of_mem a hl)

theorem splitLines_single (cs : Str) (h : '\n' ∉ cs) : splitLines cs = [cs] := by
  induction cs with
  | nil => rfl
  | cons c rest ih =>
    simp only [splitLines]
    have hc : ¬ c = '\n' := by
      intro hh
      exact h (hh ▸ List.mem_cons_self c rest)
    rw [if_neg hc]
    have hr : splitLines rest = [rest] :=
      ih (fun hm => h (List.mem_cons_of_mem c hm))
    rw [hr]

/-!
Paginator and heading indexer: translation of processContent in
src/views/Reader.tsx.  The source fixes the page budget as the constant
CHARS_PER_PAGE = 1200; the claims quantify over the budget, so the embedded
functions take it as a parameter.  The 0.8 factor of the heading
pull-forward test (currentLength greater than budget times 0.8) is written
with integers as 4 * budget < 5 * currentLength, which is exactly the same
comparison.
-/

def CHARS_PER_PAGE : Nat := 1200

structure TocItem where
  title : Str
  pageIndex : Nat
  level : Nat
deriving DecidableEq, Repr

/-- Length of the run of leading hash characters. -/
def hashRun (cs : Str) : Nat := (cs.takeWhile (fun c => c == '#')).length

/-- The first alternative of headerRegex: one to six hash characters
followed by a whitespace character.  The regex matches exactly when the
leading hash run has length between 1 and 6 and the character after it is
whitespace (a seventh hash or a non-space successor defeats every
backtracking split). -/
def isHashHeading (cs : Str) : Bool :=
  let r := hashRun cs
  decide (1 ≤ r) && decide (r ≤ 6) &&
    (match (cs.drop r).head? with
     | some c => isJsWs c
     | none => false)

/-- The numeral class of the second alternative of headerRegex: ASCII
digits and the Chinese numerals of the source character class. -/
def isCnNumeral (c : Char) : Bool :=
  c.isDigit || c == '零' || c == '一' || c == '二' || c == '三' || c == '四' ||
  c == '五' || c == '六' || c == '七' || c == '八' || c == '九' || c == '十' ||
  c == '百' || c == '千'

/-- The second alternative of headerRegex: the chapter marker 第, one or
more numerals, then one of 章回节卷. -/
def isCjkHeading : Str → Bool
  | [] => false
  | c :: rest =>
    c == '第' &&
    (let n := (rest.takeWhile isCnNumeral).length
     decide (1 ≤ n) &&
       (match (rest.drop n).head? with
        | some k => k == '章' || k == '回' || k == '节' || k == '卷'
        | none => false))

/-- ASCII lower-casing, the effect of the regex flag i on the Chapter
alternative. -/
def lowerAscii (c : Char) : Char :=
  if 'A' ≤ c && c ≤ 'Z' then Char.ofNat (c.toNat + 32) else c

/-- Case-insensitive removal of a literal pattern from the front of a
string; none when the pattern is not a prefix up to ASCII case. -/
def dropLitCI : Str → Str → Option Str
  | [], rest => some rest
  | _ :: _, [] => none
  | p :: ps, c :: cs => if lowerAscii c == p then dropLitCI ps cs else none

/-- The third alternative of headerRegex: the word Chapter (any case), one
or more whitespace characters, then at least one ASCII digit. -/
def isChapterHeading (cs : Str) : Bool :=
  match dropLitCI ("chapter".data) cs with
  | none => false
  | some rest =>
    let w := (rest.takeWhile isJsWs).length
    decide (1 ≤ w) &&
      (match (rest.drop w).head? with
       | some d => d.isDigit
       | none => false)

/-- headerRegex.test(line.trim()) of the source. -/
def isHeaderLine (line : Str) : Bool :=
  let t := trimStr line
  isHashHeading t || isCjkHeading t || isChapterHeading t

/-- Heading level: the length of the leading hash run of the raw line when
it starts with a hash (with the source fallback to 1), otherwise 1. -/
def levelOf (line : Str) : Nat :=
  match line.head? with
  | some '#' => let r := hashRun line; if r == 0 then 1 else r
  | _ => 1

/-- Display title: strip the leading run of hashes and whitespace, trim,
and truncate to 20 characters with an ellipsis when longer. -/
def titleOf (line : Str) : Str :=
  let t := trimStr (line.dropWhile (fun c => c == '#' || isJsWs c))
  if 20 < t.length then t.take 20 ++ ("...".data) else t

structure PagState where
  pages : List Str
  chunk : Str
  len : Nat
  toc : List TocItem
  pageIndex : Nat
deriving Repr

/-- Target page of a heading seen in state s: the current page index, or
the next one when the accumulated length already exceeds 80 percent of the
budget. -/
def headerTarget (budget : Nat) (s : PagState) : Nat :=
  if 4 * budget < 5 * s.len then s.pageIndex + 1 else s.pageIndex

/-- One iteration of the line loop of processContent: record a TocItem when
the trimmed line matches the heading pattern, append the line and a
terminator to the current chunk, and flush the chunk as a page when the
accumulated raw length exceeds the budget. -/
def pagStep (budget : Nat) (s : PagState) (line : Str) : PagState :=
  let s1 : PagState :=
    if isHeaderLine line then
      { s with toc := s.toc ++
          [{ title := titleOf line, pageIndex := headerTarget budget s,
             level := levelOf line }] }
    else s
  let chunk := s1.chunk ++ line ++ ['\n']
  let len := s1.len + line.length
  if budget < len then
    { pages := s1.pages ++ [chunk], chunk := [], len := 0,
      toc := s1.toc, pageIndex := s1.pageIndex + 1 }
  else
    { s1 with chunk := chunk, len := len }

def initPag : PagState := ⟨[], [], 0, [], 0⟩

def pagRun (budget : Nat) (lines : List Str) : PagState :=
  lines.foldl (pagStep budget) initPag

/-- The placeholder page pushed when pagination produced no pages. -/
def PLACEHOLDER : Str := "暂无内容".data

/-- processContent of src/views/Reader.tsx: split the content on newlines,
run the line loop, keep the leftover chunk when it is not blank, and fall
back to a single placeholder page when nothing was produced.  Returns the
page list and the table of contents. -/
def processContent (budget : Nat) (content : Str) : List Str × List TocItem :=
  let s := pagRun budget (splitLines content)
  let newPages := if isBlank s.chunk then s.pages else s.pages ++ [s.chunk]
  let finalPages := if newPages.isEmpty then [PLACEHOLDER] else newPages
  (finalPages, s.toc)

/-! Helper lemmas about blankness and the line loop. -/

theorem isBlank_append (a b : Str) :
    isBlank (a ++ b) = (isBlank a && isBlank b) := by
  simp [isBlank, List.all_append]

theorem trimStr_of_blank (s : Str) (h : isBlank s = true) : trimStr s = [] := by
  have hd : s.dropWhile isJsWs = [] := by
    rw [List.dropWhile_eq_nil_iff]
    intro x hx
    exact List.all_eq_true.mp h x hx
  simp [trimStr, hd]

theorem isHeaderLine_not_blank (line : Str) (h : isHeaderLine line = true) :
    isBlank line = false := by
  by_contra hb
  have hb' : isBlank line = true := by
    cases hx : isBlank line
    · exact absurd hx hb
    · rfl
  have ht : trimStr line = [] := trimStr_of_blank line hb'
  rw [isHeaderLine, ht] at h
  simp [isHashHeading, hashRun, isCjkHeading, isChapterHeading, dropLitCI] at h

theorem pagStep_pages (b : Nat) (s : PagState) (line : Str) :
    concatStrs (pagStep b s line).pages ++ (pagStep b s line).chunk =
      concatStrs s.pages ++ s.chunk ++ line ++ ['\n'] := by
  simp only [pagStep]
  split
  · split
    · simp [concatStrs_append, concatStrs_cons, concatStrs_nil]
    · simp
  · split
    · simp [concatStrs_append, concatStrs_cons, concatStrs_nil]
    · simp

theorem pagFold_pages (b : Nat) (lines : List Str) (s : PagState) :
    concatStrs (lines.foldl (pagStep b) s).pages ++
        (lines.foldl (pagStep b) s).chunk =
      concatStrs s.pages ++ s.chunk ++
        concatStrs (lines.map (fun l => l ++ ['\n'])) := by
  induction lines generalizing s with
  | nil => simp [concatStrs_nil]
  | cons l ls ih =>
    simp only [List.foldl_cons, List.map_cons, concatStrs_cons]
    rw [ih (pagStep b s l), pagStep_pages]
    simp [List.append_assoc]

theorem pagRun_concat (b : Nat) (content : Str) :
    concatStrs (pagRun b (splitLines content)).pages ++
        (pagRun b (splitLines content)).chunk = content ++ ['\n'] := by
  rw [pagRun, pagFold_pages]
  simp [initPag, concatStrs_nil, splitLines_concat]

/-- Claim C1, counterexample: for the one-character text a, the single
produced page carries a trailing newline, so concatenating page contents
does not reconstruct the text exactly. -/
theorem processContent_not_lossless :
    ¬ concatStrs (processContent 1200 ("a".data)).1 = "a".data := by decide

/-- Claim C1 (amended): concatenating the produced pages in order yields
the original text followed by one trailing newline, up to a dropped
whitespace-only final chunk; when nothing at all was produced the result is
the single placeholder page instead. -/
theorem processContent_concat (budget : Nat) (content : Str) :
    (∃ d : Str, isBlank d = true ∧
        concatStrs (processContent budget content).1 ++ d = content ++ ['\n']) ∨
    (processContent budget content).1 = [PLACEHOLDER] := by
  have hkey := pagRun_concat budget content
  simp only [processContent]
  cases hb : isBlank (pagRun budget (splitLines content)).chunk
  · left
    refine ⟨[], rfl, ?_⟩
    simp only [hb, Bool.false_eq_true, if_false]
    rw [if_neg (by simp [List.isEmpty_iff])]
    simpa [concatStrs_append, concatStrs_cons, concatStrs_nil] using hkey
  · rcases hp : (pagRun budget (splitLines content)).pages with _ | ⟨q, qs⟩
    · right
      simp [hb, hp]
    · left
      refine ⟨(pagRun budget (splitLines content)).chunk, hb, ?_⟩
      rw [hp] at hkey
      simp only [hb, if_true, hp]
      rw [if_neg (by simp [List.isEmpty_iff])]
      simpa using hkey

/-! Table-of-contents index bound.  The loop invariant: the running page
index equals the number of flushed pages, and every recorded entry points
at most one past them, the extra one being covered by the pending chunk,
which is never blank while a recorded heading still sits in it. -/

def pagInv (s : PagState) : Prop :=
  s.pageIndex = s.pages.length ∧
  ∀ t ∈ s.toc,
    t.pageIndex ≤ s.pages.length + (if isBlank s.chunk then 0 else 1)

theorem pagStep_inv (b : Nat) (s : PagState) (line : Str)
    (h : pagInv s) : pagInv (pagStep b s line) := by
  obtain ⟨h1, h2⟩ := h
  have hbit : ∀ t ∈ s.toc, t.pageIndex ≤ s.pages.length + 1 := by
    intro t ht
    have := h2 t ht
    split at this <;> omega
  simp only [pagStep]
  cases hh : isHeaderLine line
  · simp only [Bool.false_eq_true, if_false]
    split
    · refine ⟨by simp [h1], ?_⟩
      intro t ht
      have := hbit t ht
      simp only [List.length_append, List.length_cons, List.length_nil]
      split <;> omega
    · refine ⟨h1, ?_⟩
      intro t ht
      have := h2 t ht
      cases hb : isBlank s.chunk
      · have hb2 : isBlank (s.chunk ++ line ++ ['\n']) = false := by
          rw [isBlank_append, isBlank_append, hb]
          simp
        rw [hb] at this
        simp only [Bool.false_eq_true, if_false] at this
        simp only [hb2, Bool.false_eq_true, if_false]
        omega
      · rw [hb] at this
        simp only [if_true] at this
        dsimp only
        split <;> omega
  · simp only [if_true]
    have htocnew : ∀ t ∈ s.toc ++
        [{ title := titleOf line, pageIndex := headerTarget b s,
           level := levelOf line }],
        t.pageIndex ≤ s.pages.length + 1 := by
      intro t ht
      rcases List.mem_append.mp ht with ht | ht
      · exact hbit t ht
      · rcases List.mem_singleton.mp ht with rfl
        simp only [headerTarget]
        split <;> omega
    have hline : isBlank line = false := isHeaderLine_not_blank line hh
    split
    · refine ⟨by simp [h1], ?_⟩
      intro t ht
      have := htocnew t ht
      simp only [List.length_append, List.length_cons, List.length_nil]
      split <;> omega
    · refine ⟨h1, ?_⟩
      intro t ht
      have := htocnew t ht
      have hb2 : isBlank (s.chunk ++ line ++ ['\n']) = false := by
        rw [isBlank_append, isBlank_append, hline]
        simp
      simp only [hb2, Bool.false_eq_true, if_false]
      omega

theorem pagFold_inv (b : Nat) (lines : List Str) :
    ∀ s : PagState, pagInv s → pagInv (lines.foldl (pagStep b) s) := by
  induction lines with
  | nil => intro s hs; exact hs
  | cons l ls ih => intro s hs; exact ih _ (pagStep_inv b s l hs)

theorem pagRun_inv (b : Nat) (lines : List Str) :
    pagInv (pagRun b lines) := by
  rw [pagRun]
  refine pagFold_inv b lines initPag ⟨rfl, ?_⟩
  intro t ht
  simp [initPag] at ht

/-- Claim C2, counterexample: a heading seen when the accumulated length
already exceeds 80 percent of the budget is recorded against the next page
index, but that page never materialises when the heading lands in the last
flushed page, so the recorded index equals the page count. -/
theorem toc_index_overflow :
    ¬ (∀ t ∈ (processContent 10 ("abcdefghi\n# A".data)).2,
        t.pageIndex < (processContent 10 ("abcdefghi\n# A".data)).1.length) := by
  decide

/-- Claim C2 (amended): after pagination every recorded TocEntry has a page
index between 0 and the page count inclusive; the index can equal the page
count (one past the end) when a heading near a page boundary was pulled
forward to a next page that was never produced. -/
theorem processContent_toc_bound (budget : Nat) (content : Str) :
    ∀ t ∈ (processContent budget content).2,
      t.pageIndex ≤ (processContent budget content).1.length := by
  obtain ⟨h1, h2⟩ := pagRun_inv budget (splitLines content)
  simp only [processContent]
  intro t ht
  have hbound := h2 t ht
  cases hb : isBlank (pagRun budget (splitLines content)).chunk
  · rw [hb] at hbound
    simp only [Bool.false_eq_true, if_false] at hbound
    simp only [hb, Bool.false_eq_true, if_false]
    rw [if_neg (by simp [List.isEmpty_iff])]
    simp only [List.length_append, List.length_cons, List.length_nil]
    omega
  · rw [hb] at hbound
    simp only [if_true] at hbound
    simp only [hb, if_true]
    split
    · rename_i hemp
      rw [List.isEmpty_iff] at hemp
      rw [hemp] at hbound
      simp only [List.length_nil] at hbound
      simp only [List.length_cons, List.length_nil]
      omega
    · omega

/-- Witness for the amended C2 bound at a concrete heading-only text. -/
theorem processContent_toc_bound_witness :
    ({ title := "A".data, pageIndex := 0, level := 1 } : TocItem).pageIndex ≤
      (processContent 10 ("# A".data)).1.length :=
  processContent_toc_bound 10 ("# A".data)
    { title := "A".data, pageIndex := 0, level := 1 } (by decide)

/-- Claim C4: when the line loop sees a heading line it appends a TocEntry
immediately, targeting the current page index, or the next page index when
the accumulated length at that very moment already exceeds 80 percent of
the budget; the later fate of the page boundary does not enter the
computation. -/
theorem pagStep_header_toc (budget : Nat) (s : PagState) (line : Str)
    (h : isHeaderLine line = true) :
    (4 * budget < 5 * s.len →
      (pagStep budget s line).toc = s.toc ++
        [{ title := titleOf line, pageIndex := s.pageIndex + 1,
           level := levelOf line }]) ∧
    (¬ 4 * budget < 5 * s.len →
      (pagStep budget s line).toc = s.toc ++
        [{ title := titleOf line, pageIndex := s.pageIndex,
           level := levelOf line }]) := by
  constructor
  · intro hl
    simp only [pagStep, h, if_true, headerTarget, if_pos hl]
    split <;> rfl
  · intro hl
    simp only [pagStep, h, if_true, headerTarget, if_neg hl]
    split <;> rfl

/-- Witness for the heading-record rule: a heading line fed to the loop in
the initial state is recorded at once against page index 0. -/
theorem pagStep_header_toc_witness :
    (pagStep 10 initPag ("# A".data)).toc =
      [{ title := "A".data, pageIndex := 0, level := 1 }] := by
  have h := (pagStep_header_toc 10 initPag ("# A".data) (by decide)).2 (by decide)
  simpa [initPag] using h

/-! Raw accumulated length of a chunk: the characters other than the
appended line terminators.  Lines produced by splitLines carry no newline,
so this recovers currentLength of the source. -/

def rawLen (p : Str) : Nat := (p.filter (fun c => c != '\n')).length

theorem rawLen_append (a b : Str) : rawLen (a ++ b) = rawLen a + rawLen b := by
  simp [rawLen, List.filter_append]

theorem rawLen_of_no_newline (l : Str) (h : '\n' ∉ l) : rawLen l = l.length := by
  rw [rawLen, List.filter_eq_self.mpr]
  intro a ha
  simp only [bne_iff_ne, ne_eq]
  intro hq
  exact h (hq ▸ ha)

def lenInv (b : Nat) (s : PagState) : Prop :=
  s.len = rawLen s.chunk ∧ ∀ p ∈ s.pages, b < rawLen p

theorem pagStep_lenInv (b : Nat) (s : PagState) (line : Str)
    (hline : '\n' ∉ line) (h : lenInv b s) : lenInv b (pagStep b s line) := by
  obtain ⟨h1, h2⟩ := h
  have hch : rawLen (s.chunk ++ line ++ ['\n']) = s.len + line.length := by
    rw [rawLen_append, rawLen_append, rawLen_of_no_newline line hline, h1]
    simp [rawLen]
  simp only [pagStep]
  cases hh : isHeaderLine line
  · simp only [Bool.false_eq_true, if_false]
    split
    · rename_i hflush
      refine ⟨by simp [rawLen], ?_⟩
      intro p hp
      rcases List.mem_append.mp hp with hp | hp
      · exact h2 p hp
      · rcases List.mem_singleton.mp hp with rfl
        rw [hch]
        exact hflush
    · exact ⟨hch.symm, h2⟩
  · simp only [if_true]
    split
    · rename_i hflush
      refine ⟨by simp [rawLen], ?_⟩
      intro p hp
      rcases List.mem_append.mp hp with hp | hp
      · exact h2 p hp
      · rcases List.mem_singleton.mp hp with rfl
        rw [hch]
        exact hflush
    · exact ⟨hch.symm, h2⟩

theorem pagFold_lenInv (b : Nat) (lines : List Str)
    (hl : ∀ l ∈ lines, '\n' ∉ l) :
    ∀ s : PagState, lenInv b s → lenInv b (lines.foldl (pagStep b) s) := by
  induction lines with
  | nil => intro s hs; exact hs
  | cons l ls ih =>
    intro s hs
    exact ih (fun x hx => hl x (List.mem_cons_of_mem l hx)) _
      (pagStep_lenInv b s l (hl l (List.mem_cons_self l ls)) hs)

theorem pagRun_lenInv (b : Nat) (content : Str) :
    lenInv b (pagRun b (splitLines content)) := by
  rw [pagRun]
  exact pagFold_lenInv b (splitLines content) (splitLines_no_newline content)
    initPag ⟨rfl, by intro p hp; simp [initPag] at hp⟩

/-- Claim C10: the page character budget is a flush threshold, not a size
cap.  Every page except possibly the last was flushed because its raw
accumulated line length strictly exceeded the budget, and a text consisting
of a single non-blank line is always emitted whole as one page, however
long the line is compared to the budget. -/
theorem processContent_budget_threshold (budget : Nat) (content : Str) :
    (∀ p ∈ (processContent budget content).1.dropLast, budget < rawLen p) ∧
    ('\n' ∉ content → isBlank content = false →
      (processContent budget content).1 = [content ++ ['\n']]) := by
  constructor
  · obtain ⟨h1, h2⟩ := pagRun_lenInv budget content
    simp only [processContent]
    intro p hp
    cases hb : isBlank (pagRun budget (splitLines content)).chunk
    · simp only [hb, Bool.false_eq_true, if_false] at hp
      rw [if_neg (by simp [List.isEmpty_iff])] at hp
      rw [List.dropLast_concat] at hp
      exact h2 p hp
    · simp only [hb, if_true] at hp
      split at hp
      · simp at hp
      · exact h2 p (List.dropLast_sublist _ |>.subset hp)
  · intro hnl hnb
    simp only [processContent]
    rw [splitLines_single content hnl]
    simp only [pagRun, List.foldl_cons, List.foldl_nil]
    have hnh : isBlank (content ++ ['\n']) = false := by
      rw [isBlank_append, hnb]
      simp
    simp only [pagStep, initPag]
    cases hh : isHeaderLine content
    · simp only [Bool.false_eq_true, if_false]
      split
      · simp [isBlank]
      · simp [hnh]
    · simp only [if_true]
      split
      · simp [isBlank]
      · simp [hnh]

/-- Witness for the budget-threshold property: with budget 5 the first of
the two produced pages holds nine raw characters. -/
theorem processContent_budget_threshold_witness :
    5 < rawLen ("abcdefgh\n".data) :=
  (processContent_budget_threshold 5 ("abcdefgh\nxy".data)).1
    ("abcdefgh\n".data) (by decide)

/-!
PDF layout extractor: translation of the per-page item loop of
extractTextFromPdf in src/services/pdf.ts.  An item is a pdf.js text run:
its string content and its vertical baseline coordinate transform[5]
(modelled as an integer, which the thresholds 24 and 8 compare exactly).
The source marks the absence of a previous run with the sentinel -9999,
kept here verbatim.
-/

/-- The CJK test of the source: code points U+3000 to U+303F, U+4E00 to
U+9FA5 and U+FF00 to U+FFEF. -/
def isCJKchar (c : Char) : Bool :=
  (0x3000 ≤ c.toNat && c.toNat ≤ 0x303F) ||
  (0x4E00 ≤ c.toNat && c.toNat ≤ 0x9FA5) ||
  (0xFF00 ≤ c.toNat && c.toNat ≤ 0xFFEF)

structure PdfState where
  pageText : Str
  lastY : Int
deriving Repr, DecidableEq

/-- One iteration of the item loop: skip blank runs; otherwise choose the
separator from the vertical difference to the previous kept run (paragraph
break above 24, line break above 8, a space for an upward jump below -8,
and on the same line a space exactly when neither boundary character is CJK
and the previous character is not already a space or newline), then append
the run and remember its coordinate. -/
def pdfStep (s : PdfState) (item : Str × Int) : PdfState :=
  if isBlank item.1 then s
  else
    let currentY := item.2
    let sep : Str :=
      if s.lastY != -9999 then
        let yDiff := s.lastY - currentY
        if 8 < yDiff then
          if 24 < yDiff then ['\n', '\n'] else ['\n']
        else if yDiff < -8 then [' ']
        else
          match s.pageText.getLast?, item.1.head? with
          | some lastChar, some currChar =>
            if !isCJKchar lastChar && !isCJKchar currChar &&
                lastChar != ' ' && lastChar != '\n' then [' ']
            else []
          | _, _ => []
      else []
    { pageText := s.pageText ++ sep ++ item.1, lastY := currentY }

/-- The whole item loop of one page, starting from the empty page text and
the sentinel coordinate. -/
def extractPdfPage (items : List (Str × Int)) : Str :=
  (items.foldl pdfStep ⟨[], -9999⟩).pageText

/-- Claim C3: for two consecutive kept (non-blank) runs on a page, with
yDiff the previous minus the current baseline: above 24 a paragraph break
is inserted, in (8, 24] a single newline, below -8 a single space, and in
[-8, 8] a space exactly when neither boundary character is CJK and the
previous character is not already a space or newline. -/
theorem pdfStep_separator (s : PdfState) (str : Str) (y : Int)
    (hprev : s.lastY ≠ -9999) (hstr : isBlank str = false)
    (p : Str) (lc : Char) (hp : s.pageText = p ++ [lc])
    (cc : Char) (tl : Str) (hc : str = cc :: tl) :
    (24 < s.lastY - y →
      (pdfStep s (str, y)).pageText = s.pageText ++ ['\n', '\n'] ++ str) ∧
    (8 < s.lastY - y ∧ s.lastY - y ≤ 24 →
      (pdfStep s (str, y)).pageText = s.pageText ++ ['\n'] ++ str) ∧
    (s.lastY - y < -8 →
      (pdfStep s (str, y)).pageText = s.pageText ++ [' '] ++ str) ∧
    (-8 ≤ s.lastY - y ∧ s.lastY - y ≤ 8 →
      (pdfStep s (str, y)).pageText = s.pageText ++
        (if isCJKchar lc = false ∧ isCJKchar cc = false ∧ lc ≠ ' ' ∧ lc ≠ '\n'
         then [' '] else []) ++ str) := by
  have hsen : (s.lastY != -9999) = true := bne_iff_ne.mpr hprev
  refine ⟨?_, ?_, ?_, ?_⟩
  · intro hy
    simp only [pdfStep, hstr, Bool.false_eq_true, if_false, hsen, if_true]
    rw [if_pos (by omega), if_pos hy]
  · rintro ⟨hy1, hy2⟩
    simp only [pdfStep, hstr, Bool.false_eq_true, if_false, hsen, if_true]
    rw [if_pos (by omega), if_neg (by omega)]
  · intro hy
    simp only [pdfStep, hstr, Bool.false_eq_true, if_false, hsen, if_true]
    rw [if_neg (by omega), if_pos (by omega)]
  · rintro ⟨hy1, hy2⟩
    simp only [pdfStep, hstr, Bool.false_eq_true, if_false, hsen, if_true]
    rw [if_neg (by omega), if_neg (by omega), hp, hc]
    rw [List.getLast?_concat]
    simp only [List.head?_cons]
    have hiff : ((!isCJKchar lc && !isCJKchar cc && lc != ' ' && lc != '\n') = true) ↔
        (isCJKchar lc = false ∧ isCJKchar cc = false ∧ lc ≠ ' ' ∧ lc ≠ '\n') := by
      constructor
      · intro hA
        simp only [Bool.and_eq_true, Bool.not_eq_true', bne_iff_ne, ne_eq] at hA
        tauto
      · intro hA
        simp only [Bool.and_eq_true, Bool.not_eq_true', bne_iff_ne, ne_eq]
        tauto
    rw [if_congr hiff rfl rfl]

/-- Witness for the PDF separator rule: two CJK runs five units apart on
the same line concatenate with no inserted space. -/
theorem pdfStep_separator_witness :
    (pdfStep ⟨"中".data, 100⟩ ("文".data, 95)).pageText = "中文".data := by
  have h := (pdfStep_separator ⟨"中".data, 100⟩ ("文".data) 95
      (by decide) (by decide) [] '中' (by decide) '文' [] (by decide)).2.2.2
      (by constructor <;> decide)
  rw [h]
  decide

/-!
Encoding resolver: translation of readTextFile in the library view.  The
two TextDecoder instances are external browser objects: the permissive
UTF-8 decode is a total function on byte buffers, the GB18030 decode may
throw, modelled as an Option.  The replacement-character test of the
source, count greater than 0 and count greater than length times 0.01, is
written with integers as 0 < count and length < 100 * count, the same
comparison. -/

def REPLACEMENT : Char := '�'

def readTextFile (utf8Decode : Bytes → Str) (gb18030Decode : Bytes → Option Str)
    (buffer : Bytes) : Str :=
  let utf8Text := utf8Decode buffer
  let replacementCount := utf8Text.count REPLACEMENT
  if 0 < replacementCount ∧ utf8Text.length < 100 * replacementCount then
    match gb18030Decode buffer with
    | some gbkText => gbkText
    | none => utf8Text
  else utf8Text

/-- Claim C5: the resolver returns the permissive UTF-8 decode unless the
replacement-character count is nonzero and exceeds 1 percent of the decoded
length, in which case it returns the GB18030 re-decode of the original
buffer, falling back to the lossy UTF-8 result when that decode fails; a
buffer whose UTF-8 decode has no replacement character is never re-decoded
(the result does not even depend on the alternate decoder). -/
theorem readTextFile_policy (utf8Decode : Bytes → Str)
    (gb18030Decode : Bytes → Option Str) (buffer : Bytes) :
    (¬ (0 < (utf8Decode buffer).count REPLACEMENT ∧
          (utf8Decode buffer).length <
            100 * (utf8Decode buffer).count REPLACEMENT) →
        readTextFile utf8Decode gb18030Decode buffer = utf8Decode buffer) ∧
    ((0 < (utf8Decode buffer).count REPLACEMENT ∧
          (utf8Decode buffer).length <
            100 * (utf8Decode buffer).count REPLACEMENT) →
        readTextFile utf8Decode gb18030Decode buffer =
          (gb18030Decode buffer).getD (utf8Decode buffer)) ∧
    ((utf8Decode buffer).count REPLACEMENT = 0 →
        ∀ gbAlt : Bytes → Option Str,
          readTextFile utf8Decode gbAlt buffer = utf8Decode buffer) := by
  refine ⟨?_, ?_, ?_⟩
  · intro h
    simp only [readTextFile, if_neg h]
  · intro h
    simp only [readTextFile, if_pos h]
    cases hg : gb18030Decode buffer <;> simp [hg, Option.getD]
  · intro h gbAlt
    have hno : ¬ (0 < (utf8Decode buffer).count REPLACEMENT ∧
        (utf8Decode buffer).length <
          100 * (utf8Decode buffer).count REPLACEMENT) := by
      rw [h]
      simp
    simp only [readTextFile, if_neg hno]

/-- Witness for the encoding-resolver policy: a clean decode is returned
unchanged. -/
theorem readTextFile_policy_witness :
    readTextFile (fun _ => "ok".data) (fun _ => some ("g".data)) [] =
      "ok".data :=
  (readTextFile_policy (fun _ => "ok".data) (fun _ => some ("g".data)) []).1
    (by decide)

/-!
Format dispatcher tail of processFile in the library view: the size guard
runs before any extractor is invoked, and the post-extraction blank test
converts an empty or whitespace-only text into a failure.  The extractor
chosen by the format dispatch is passed as a thunk; its error kinds are the
spec error taxonomy. -/

inductive IngestError where
  | oversizedInput
  | emptyContent
  | extractionFailed
deriving DecidableEq, Repr

def MAX_FILE_SIZE : Nat := 50 * 1024 * 1024

/-- processFile of the library view after format dispatch: reject oversized
inputs before running the extractor, propagate extractor failure, and
reject blank extracted text. -/
def processFile (fileSize : Nat) (extract : Unit → Except IngestError Str) :
    Except IngestError Str :=
  if MAX_FILE_SIZE < fileSize then .error .oversizedInput
  else
    match extract () with
    | .error e => .error e
    | .ok text => if isBlank text then .error .emptyContent else .ok text

/-- Claim C9: an input larger than 50 MiB is rejected with the oversized
error before any extraction work happens: the outcome is the error and is
identical whatever extractor thunk is supplied. -/
theorem processFile_oversized (fileSize : Nat)
    (h : MAX_FILE_SIZE < fileSize) :
    ∀ extract other : Unit → Except IngestError Str,
      processFile fileSize extract = .error .oversizedInput ∧
      processFile fileSize extract = processFile fileSize other := by
  intro extract other
  constructor
  · simp only [processFile, if_pos h]
  · simp only [processFile, if_pos h]

/-- Witness for the oversized guard one byte above the 50 MiB limit. -/
theorem processFile_oversized_witness :
    processFile 52428801 (fun _ => .ok ("a".data)) =
      .error .oversizedInput :=
  (processFile_oversized 52428801 (by decide)
    (fun _ => .ok ("a".data)) (fun _ => .ok ("b".data))).1

/-!
EPUB spine extractor: translation of the spine loop of extractTextFromEpub
in the ebook parser service, starting from the parsed container: the OPF
directory, the manifest as the ordered list of item id and href attribute
pairs, the spine as the ordered list of itemref idref attributes, and the
zip as the list of entry path and text pairs.  A missing getAttribute
result is modelled as the empty string, which the source skips through its
JavaScript falsiness tests; stripHtml (DOMParser text extraction) and
decodeURIComponent are external functions passed in. -/

inductive EpubError where
  | emptyContent
deriving DecidableEq, Repr

/-- Resolution of one spine itemref, the body of the spine loop: a falsy
idref is skipped; the idref is looked up among the manifest items (first
match); a falsy href is skipped; the href joined to the OPF directory and
URL-decoded is looked up among the zip entries; a missing or falsy entry
text is skipped; otherwise the markup-stripped text is the contribution. -/
def spineItemText (stripHtml : Str → Str) (decodeURI : Str → Str)
    (zip : List (Str × Str)) (opfDir : Str) (manifest : List (Str × Str))
    (idref : Str) : Option Str :=
  if idref.isEmpty then none
  else
    match manifest.find? (fun it => it.1 == idref) with
    | none => none
    | some it =>
      if it.2.isEmpty then none
      else
        match zip.find? (fun en => en.1 == decodeURI (opfDir ++ it.2)) with
        | none => none
        | some en => if en.2.isEmpty then none else some (stripHtml en.2)

/-- The spine loop accumulator: each resolved contribution is appended
followed by a paragraph separator of two newlines. -/
def epubSpineFold (stripHtml : Str → Str) (decodeURI : Str → Str)
    (zip : List (Str × Str)) (opfDir : Str) (manifest : List (Str × Str)) :
    List Str → Str → Str
  | [], acc => acc
  | idref :: rest, acc =>
    match spineItemText stripHtml decodeURI zip opfDir manifest idref with
    | some txt =>
      epubSpineFold stripHtml decodeURI zip opfDir manifest rest
        (acc ++ txt ++ ['\n', '\n'])
    | none => epubSpineFold stripHtml decodeURI zip opfDir manifest rest acc

/-- extractTextFromEpub after container and OPF parsing: run the spine
loop, then fail with the empty-content error when the accumulated text is
blank. -/
def extractTextFromEpub (stripHtml : Str → Str) (decodeURI : Str → Str)
    (zip : List (Str × Str)) (opfDir : Str) (manifest : List (Str × Str))
    (spine : List Str) : Except EpubError Str :=
  let fullText := epubSpineFold stripHtml decodeURI zip opfDir manifest spine []
  if isBlank fullText then .error .emptyContent else .ok fullText

theorem epubSpineFold_eq (stripHtml : Str → Str) (decodeURI : Str → Str)
    (zip : List (Str × Str)) (opfDir : Str) (manifest : List (Str × Str)) :
    ∀ (spine : List Str) (acc : Str),
      epubSpineFold stripHtml decodeURI zip opfDir manifest spine acc =
        acc ++ concatStrs
          (((spine.filterMap
              (spineItemText stripHtml decodeURI zip opfDir manifest)).map
            (fun t => t ++ ['\n', '\n']))) := by
  intro spine
  induction spine with
  | nil => intro acc; simp [epubSpineFold, concatStrs_nil]
  | cons idref rest ih =>
    intro acc
    simp only [epubSpineFold, List.filterMap_cons]
    cases hit : spineItemText stripHtml decodeURI zip opfDir manifest idref
    · dsimp only
      rw [ih acc]
    · dsimp only
      rw [ih (acc ++ _ ++ ['\n', '\n'])]
      simp [concatStrs_cons, List.append_assoc]

theorem find?_key_of_perm (m₁ m₂ : List (Str × Str))
    (hperm : List.Perm m₁ m₂) (hnd : (m₁.map Prod.fst).Nodup) (k : Str) :
    m₁.find? (fun it => it.1 == k) = m₂.find? (fun it => it.1 == k) := by
  have hnd₂ : (m₂.map Prod.fst).Nodup :=
    ((hperm.map Prod.fst).nodup_iff).mp hnd
  cases h₁ : m₁.find? (fun it => it.1 == k)
  · cases h₂ : m₂.find? (fun it => it.1 == k)
    · rfl
    · rename_i it
      exfalso
      have hmem : it ∈ m₂ := List.mem_of_find?_eq_some h₂
      have hmem₁ : it ∈ m₁ := (hperm.mem_iff).mpr hmem
      have hno := (List.find?_eq_none.mp h₁) it hmem₁
      have hyes := List.find?_some h₂
      exact hno hyes
  · rename_i it
    have hp₁ := List.find?_some h₁
    have hmem₁ : it ∈ m₁ := List.mem_of_find?_eq_some h₁
    have hmem₂ : it ∈ m₂ := (hperm.mem_iff).mp hmem₁
    cases h₂ : m₂.find? (fun x => x.1 == k)
    · exfalso
      exact (List.find?_eq_none.mp h₂) it hmem₂ hp₁
    · rename_i jt
      have hp₂ := List.find?_some h₂
      have hmemj : jt ∈ m₂ := List.mem_of_find?_eq_some h₂
      have hmemj₁ : jt ∈ m₁ := (hperm.mem_iff).mpr hmemj
      have hkeys : it.1 = jt.1 := by
        have e₁ : it.1 = k := by simpa using hp₁
        have e₂ : jt.1 = k := by simpa using hp₂
        rw [e₁, e₂]
      have : it = jt := List.inj_on_of_nodup_map hnd hmem₁ hmemj₁ hkeys
      rw [this]

/-- Claim C6: a successful EPUB extraction is exactly the concatenation,
in spine order, of the markup-stripped text of each resolvable spine item
followed by two newlines — unresolvable idrefs, missing hrefs and missing
archive entries contribute nothing and abort nothing — and the result is
unchanged under any reordering of the manifest with distinct item ids. -/
theorem epub_spine_order (stripHtml : Str → Str) (decodeURI : Str → Str)
    (zip : List (Str × Str)) (opfDir : Str) (manifest : List (Str × Str))
    (spine : List Str) (s : Str) :
    (extractTextFromEpub stripHtml decodeURI zip opfDir manifest spine =
        .ok s →
      s = concatStrs
        (((spine.filterMap
            (spineItemText stripHtml decodeURI zip opfDir manifest)).map
          (fun t => t ++ ['\n', '\n'])))) ∧
    (∀ manifestAlt : List (Str × Str),
      List.Perm manifest manifestAlt → (manifest.map Prod.fst).Nodup →
      extractTextFromEpub stripHtml decodeURI zip opfDir manifest spine =
        extractTextFromEpub stripHtml decodeURI zip opfDir manifestAlt spine) := by
  constructor
  · intro hok
    simp only [extractTextFromEpub] at hok
    split at hok
    · exact absurd hok (by simp)
    · have := epubSpineFold_eq stripHtml decodeURI zip opfDir manifest spine []
      rw [this] at hok
      simp only [List.nil_append] at hok
      exact (Except.ok.inj hok).symm
  · intro manifestAlt hperm hnd
    have hitem : ∀ idref,
        spineItemText stripHtml decodeURI zip opfDir manifest idref =
          spineItemText stripHtml decodeURI zip opfDir manifestAlt idref := by
      intro idref
      simp only [spineItemText]
      rw [find?_key_of_perm manifest manifestAlt hperm hnd idref]
    have hfold : ∀ sp acc,
        epubSpineFold stripHtml decodeURI zip opfDir manifest sp acc =
          epubSpineFold stripHtml decodeURI zip opfDir manifestAlt sp acc := by
      intro sp
      induction sp with
      | nil => intro acc; rfl
      | cons idref rest ih =>
        intro acc
        simp only [epubSpineFold, hitem idref]
        cases spineItemText stripHtml decodeURI zip opfDir manifestAlt idref
        · exact ih acc
        · exact ih _
    simp only [extractTextFromEpub, hfold]

/-- Witness for the EPUB spine-order law: a two-chapter book whose spine
reverses the manifest order, with one dangling idref, extracts the chapter
texts in spine order, and reordering the manifest does not change the
result. -/
theorem epub_spine_order_witness :
    ("B\n\nA\n\n".data : Str) = concatStrs
        ((([("c2".data : Str), "c1".data, "cx".data].filterMap
            (spineItemText (fun t => t) (fun t => t)
              [("a.html".data, "A".data), ("b.html".data, "B".data)] []
              [("c1".data, "a.html".data), ("c2".data, "b.html".data)])).map
          (fun t => t ++ ['\n', '\n']))) ∧
    extractTextFromEpub (fun t => t) (fun t => t)
        [("a.html".data, "A".data), ("b.html".data, "B".data)] []
        [("c1".data, "a.html".data), ("c2".data, "b.html".data)]
        [("c2".data : Str), "c1".data, "cx".data] =
      extractTextFromEpub (fun t => t) (fun t => t)
        [("a.html".data, "A".data), ("b.html".data, "B".data)] []
        [("c2".data, "b.html".data), ("c1".data, "a.html".data)]
        [("c2".data : Str), "c1".data, "cx".data] := by
  constructor
  · exact (epub_spine_order (fun t => t) (fun t => t)
      [("a.html".data, "A".data), ("b.html".data, "B".data)] []
      [("c1".data, "a.html".data), ("c2".data, "b.html".data)]
      [("c2".data : Str), "c1".data, "cx".data] ("B\n\nA\n\n".data)).1
      (by rfl)
  · exact (epub_spine_order (fun t => t) (fun t => t)
      [("a.html".data, "A".data), ("b.html".data, "B".data)] []
      [("c1".data, "a.html".data), ("c2".data, "b.html".data)]
      [("c2".data : Str), "c1".data, "cx".data] ("B\n\nA\n\n".data)).2
      [("c2".data, "b.html".data), ("c1".data, "a.html".data)]
      (by apply List.Perm.swap) (by decide)

/-- Claim C7: blank extracted text never becomes a silent success.  Within
the size limit, an extractor returning empty or whitespace-only text makes
ingestion fail with the empty-content error; a successful ingestion never
carries blank text; and the EPUB extractor itself already fails with its
empty-content error rather than returning a blank accumulation. -/
theorem ingest_empty_content (fileSize : Nat)
    (extract : Unit → Except IngestError Str) :
    (∀ text : Str, fileSize ≤ MAX_FILE_SIZE → extract () = .ok text →
        isBlank text = true →
        processFile fileSize extract = .error .emptyContent) ∧
    (∀ text : Str, processFile fileSize extract = .ok text →
        isBlank text = false) ∧
    (∀ (stripHtml decodeURI : Str → Str) (zip : List (Str × Str))
        (opfDir : Str) (manifest : List (Str × Str)) (spine : List Str)
        (s : Str),
      extractTextFromEpub stripHtml decodeURI zip opfDir manifest spine =
          .ok s →
        isBlank s = false) := by
  refine ⟨?_, ?_, ?_⟩
  · intro text hsz hok hblank
    have hlt : ¬ MAX_FILE_SIZE < fileSize := by omega
    simp only [processFile, if_neg hlt, hok]
    simp [hblank]
  · intro text hok
    simp only [processFile] at hok
    split at hok
    · exact absurd hok (by simp)
    · split at hok
      · exact absurd hok (by simp)
      · rename_i val heq
        split at hok
        · exact absurd hok (by simp)
        · rename_i hbl
          have hv := Except.ok.inj hok
          rw [← hv]
          cases hx : isBlank val
          · rfl
          · exact absurd hx hbl
  · intro stripHtml decodeURI zip opfDir manifest spine s hok
    simp only [extractTextFromEpub] at hok
    split at hok
    · exact absurd hok (by simp)
    · rename_i hb
      have hv := Except.ok.inj hok
      rw [← hv]
      cases hx : isBlank
          (epubSpineFold stripHtml decodeURI zip opfDir manifest spine [])
      · rfl
      · exact absurd hx hb

/-- Witness for the empty-content rule: a whitespace-only extraction fails
with the empty-content error. -/
theorem ingest_empty_content_witness :
    processFile 3 (fun _ => .ok ([' '] : Str)) =
      .error IngestError.emptyContent :=
  (ingest_empty_content 3 (fun _ => .ok ([' '] : Str))).1 [' ']
    (by decide) rfl rfl

/-!
MOBI lossy extractor: translation of extractTextFromMobi in the ebook
parser service, applied to the permissive UTF-8 decode of the buffer (the
TextDecoder being external, the embedded function starts from the decoded
text).  The readable-run regex match becomes: maximal runs of readable
characters, kept when at least 10 long. -/

/-- The word-character class of the regex (letters, digits, underscore). -/
def isWordChar (c : Char) : Bool :=
  ('a' ≤ c && c ≤ 'z') || ('A' ≤ c && c ≤ 'Z') || ('0' ≤ c && c ≤ '9') ||
  c == '_'

/-- The readable class of the MOBI run regex: word characters, whitespace,
the common CJK ranges, and the listed punctuation and brackets. -/
def isReadableChar (c : Char) : Bool :=
  isWordChar c || isJsWs c ||
  (0x4E00 ≤ c.toNat && c.toNat ≤ 0x9FA5) ||
  (0x3000 ≤ c.toNat && c.toNat ≤ 0x303F) ||
  (0xFF00 ≤ c.toNat && c.toNat ≤ 0xFFEF) ||
  c == ',' || c == '.' || c == '?' || c == '!' || c == ':' || c == ';' ||
  c == '"' || c == '\'' || c == '(' || c == ')' || c == '<' || c == '>' ||
  c == '[' || c == ']' || c == '-'

/-- Maximal runs of readable characters, in order; the accumulator holds
the current run reversed. -/
def runsGo : Str → Str → List Str
  | [], acc => if acc.isEmpty then [] else [acc.reverse]
  | c :: rest, acc =>
    if isReadableChar c then runsGo rest (c :: acc)
    else if acc.isEmpty then runsGo rest []
    else acc.reverse :: runsGo rest []

/-- rawText.match of the run regex: the maximal readable runs of length at
least 10 (the regex quantifier), in order of appearance. -/
def readableRuns (cs : Str) : List Str :=
  (runsGo cs []).filter (fun r => decide (10 ≤ r.length))

/-- The character class kept by the ASCII fallback replace: printable
ASCII, newline, carriage return and tab. -/
def isPrintableAsciiWs (c : Char) : Bool :=
  (0x20 ≤ c.toNat && c.toNat ≤ 0x7E) || c == '\n' || c == '\r' || c == '\t'

/-- Removal of angle-bracket markup: each opening bracket up to the first
following closing bracket is dropped, left to right; an opening bracket
with no later closing bracket stays (the regex cannot match it). -/
def stripTagsGo : Nat → Str → Str
  | 0, cs => cs
  | _ + 1, [] => []
  | fuel + 1, c :: rest =>
    if c = '<' then
      match rest.dropWhile (fun x => x != '>') with
      | [] => c :: rest
      | _ :: after => stripTagsGo fuel after
    else c :: stripTagsGo fuel rest

def stripTags (cs : Str) : Str := stripTagsGo cs.length cs

/-- The fixed lossy-mode advisory notice prepended by the MOBI extractor. -/
def MOBI_NOTICE : Str :=
  ("【注意：MOBI 格式使用纯文本提取模式，可能会丢失部分排版格式。建议使用 EPUB 格式获得最佳体验。】\n\n").data

inductive MobiError where
  | unextractableBinary
deriving DecidableEq, Repr

/-- extractTextFromMobi on the decoded buffer text: when readable runs
exist, join them with newlines, strip residual tags and prepend the
advisory notice; when none exist, strip the text to printable ASCII plus
whitespace and return that when longer than 100 characters, failing
otherwise. -/
def extractTextFromMobi (rawText : Str) : Except MobiError Str :=
  let runs := readableRuns rawText
  if runs.isEmpty then
    let asciiText := rawText.filter isPrintableAsciiWs
    if 100 < asciiText.length then .ok asciiText
    else .error .unextractableBinary
  else .ok (MOBI_NOTICE ++ stripTags (List.intercalate ['\n'] runs))

/-- Claim C8, counterexample: a text of 101 at-sign characters has no
readable run, its ASCII fallback succeeds with 101 characters, and the
returned text does not start with the advisory notice, so a successful
extraction is not always prefixed by the notice. -/
theorem mobi_fallback_no_notice :
    extractTextFromMobi (List.replicate 101 '@') =
        .ok (List.replicate 101 '@') ∧
    ¬ (List.replicate 101 '@').take MOBI_NOTICE.length = MOBI_NOTICE := by
  constructor
  · rfl
  · decide

/-- Claim C8 (amended): when the decoded text has no readable run of
length at least 10, the extractor falls back to stripping the text to
printable ASCII plus whitespace, failing with the unextractable-binary
error when that fallback yields 100 characters or fewer and returning the
stripped text without any advisory when it yields more; the fixed advisory
notice is prepended only on the primary path, when readable runs were
found. -/
theorem extractTextFromMobi_behavior (rawText : Str) :
    ((readableRuns rawText).isEmpty = true →
      ((rawText.filter isPrintableAsciiWs).length ≤ 100 →
        extractTextFromMobi rawText = .error .unextractableBinary) ∧
      (100 < (rawText.filter isPrintableAsciiWs).length →
        extractTextFromMobi rawText =
          .ok (rawText.filter isPrintableAsciiWs))) ∧
    ((readableRuns rawText).isEmpty = false →
      extractTextFromMobi rawText =
        .ok (MOBI_NOTICE ++
          stripTags (List.intercalate ['\n'] (readableRuns rawText)))) := by
  constructor
  · intro hruns
    constructor
    · intro hlen
      simp only [extractTextFromMobi, hruns, if_true]
      rw [if_neg (by omega)]
    · intro hlen
      simp only [extractTextFromMobi, hruns, if_true]
      rw [if_pos hlen]
  · intro hruns
    simp only [extractTextFromMobi, hruns, Bool.false_eq_true, if_false]

/-- Witness for the MOBI behavior: eleven readable letters form one run,
and the result is the advisory notice followed by those letters. -/
theorem extractTextFromMobi_behavior_witness :
    extractTextFromMobi ("abcdefghijk".data) =
      .ok (MOBI_NOTICE ++ "abcdefghijk".data) := by
  have h := (extractTextFromMobi_behavior ("abcdefghijk".data)).2 (by rfl)
  rw [h]
  rfl
